import Mathlib

/-
Verification of the photo-classification utility (photo_sorter.py).

The program is shallowly embedded as follows.

A filesystem path is a list of name components (absolute, root to leaf).
A filesystem state holds the regular files (each a path paired with an
abstract file identity, standing for the file's content/inode) and the
directories.  `Path.resolve` is modelled by a resolver parameter
`Path → Option Path`; the pure resolver `pureRes` (no symlinks, nothing
vanishes concurrently) returns every path unchanged, and `none` stands
for the FileNotFoundError / ValueError the source catches.

The pattern matcher works over the extension-stripped stem of a filename,
exactly as `extract_date_from_name` does via `Path(filename).stem`, with
the three regular expressions PATTERN_DATE_TIME, PATTERN_SCREENSHOT and
PATTERN_VIDEO_CAPTURE translated into explicit character tests (regex
`\d` is modelled as an ASCII decimal digit, and filenames are assumed
newline-free, which holds for every name the claims mention).

`rglob` is modelled as a snapshot listing of the files strictly below the
root; walk order is the list order, which the spec leaves unspecified.
-/

namespace PhotoSorter

/-- A filesystem path: list of name components from the root down. -/
abbrev FsPath := List String

/-- A regular file: its path together with an abstract file identity
(standing for the file's content / inode, which a move preserves). -/
abbrev Entry := FsPath × Nat

/-- Filesystem state: the regular files and the directories. -/
structure FS where
  files : List Entry
  dirs : List FsPath
deriving DecidableEq

deriving instance DecidableEq for Except

def ROOT_FOLDER_NAME : String := "元修檔案"

def PHOTOS_FOLDER_NAME : String := "照片"

/-- Final path component after splitting on the separator, as
`pathlib` computes `Path(...).name` for slash-free and simple names. -/
def lastComponent (cs : List Char) : List Char :=
  ((cs.reverse).takeWhile (fun c => c != '/')).reverse

/-- Split a file name into (stem, suffix) following `pathlib`:
the suffix starts at the last dot, provided that dot is neither the
first nor the last character; otherwise the suffix is empty. -/
def splitStem (cs : List Char) : List Char × List Char :=
  match (cs.reverse).findIdx? (fun c => c == '.') with
  | none => (cs, [])
  | some r =>
    let i := cs.length - 1 - r
    if 0 < i ∧ i < cs.length - 1 then (cs.take i, cs.drop i) else (cs, [])

/-- Stem of a filename, as `Path(filename).stem`. -/
def stemOf (filename : String) : String :=
  String.mk (splitStem (lastComponent filename.data)).1

/-- Pattern a, `^(?P<date>\d{8})_\d{4,6}.*$`: eight digits, an
underscore, at least four digits, and then anything. -/
def pattern_date_time (cs : List Char) : Option (List Char) :=
  let d := cs.take 8
  if d.length = 8 ∧ d.all Char.isDigit = true then
    match cs.drop 8 with
    | '_' :: t =>
      if (t.take 4).length = 4 ∧ (t.take 4).all Char.isDigit = true then some d
      else none
    | _ => none
  else none

/-- One backtracking alternative of `\d{4,6}_(?P<tail>.+)`: exactly `k`
digits, an underscore, and a non-empty tail. -/
def timeTail (u : List Char) (k : Nat) : Bool :=
  decide ((u.take k).length = k) && (u.take k).all Char.isDigit &&
    (match u.drop k with
     | '_' :: _ :: _ => true
     | _ => false)

/-- Pattern b, `^screenshot_(?P<date>\d{8})_\d{4,6}_(?P<tail>.+)$` with
IGNORECASE: the literal prefix case-insensitively, eight digits, an
underscore, four to six digits, an underscore, and a non-empty tail. -/
def pattern_screenshot (cs : List Char) : Option (List Char) :=
  if (cs.take 11).map Char.toLower = ("screenshot_").data then
    let r := cs.drop 11
    let d := r.take 8
    if d.length = 8 ∧ d.all Char.isDigit = true then
      match r.drop 8 with
      | '_' :: u => if timeTail u 4 || timeTail u 5 || timeTail u 6 then some d else none
      | _ => none
    else none
  else none

/-- Pattern c, `^videocapture_(?P<date>\d{8}).*$` with IGNORECASE. -/
def pattern_video_capture (cs : List Char) : Option (List Char) :=
  if (cs.take 13).map Char.toLower = ("videocapture_").data then
    let d := (cs.drop 13).take 8
    if d.length = 8 ∧ d.all Char.isDigit = true then some d else none
  else none

/-- Return the YYYYMMDD date string if the filename's stem matches one of
the supported patterns, tried in order a, b, c; first match wins. -/
def extract_date_from_name (filename : String) : Option String :=
  match pattern_date_time (stemOf filename).data with
  | some d => some (String.mk d)
  | none =>
    match pattern_screenshot (stemOf filename).data with
    | some d => some (String.mk d)
    | none =>
      match pattern_video_capture (stemOf filename).data with
      | some d => some (String.mk d)
      | none => none

/-- A path exists if it is a regular file's path or a directory. -/
def PathExists (fs : FS) (p : FsPath) : Prop :=
  (∃ e ∈ fs.files, e.1 = p) ∨ p ∈ fs.dirs

instance (fs : FS) (p : FsPath) : Decidable (PathExists fs p) := by
  unfold PathExists; exact inferInstance

/-- Model of `dest_dir.mkdir(parents=True, exist_ok=True)`: the directory
and all its ancestors become directories of the state. -/
def mkdirP (fs : FS) (d : FsPath) : FS :=
  { fs with dirs := d.inits ++ fs.dirs }

/-- Decimal digit characters of `n`, most significant first, computed with
explicit fuel so that the kernel can evaluate it; `natReprAux (n+1) n`
is the decimal rendering an f-string applies to the duplicate counter. -/
def natReprAux : Nat → Nat → List Char
  | 0, _ => []
  | fuel + 1, n =>
    if n < 10 then [Nat.digitChar n]
    else natReprAux fuel (n / 10) ++ [Nat.digitChar (n % 10)]

/-- Decimal rendering of a natural number, as Python string formatting. -/
def natRepr (n : Nat) : String :=
  String.mk (natReprAux (n + 1) n)

/-- Name produced by `destination.with_stem(f"{destination.stem}_{k}")`:
the stem, an underscore, the counter, and the preserved suffix. -/
def dupName (st su : String) (k : Nat) : String :=
  st ++ "_" ++ natRepr k ++ su

/-- Candidate destination path for duplicate counter `k`. -/
def dupCand (dd : FsPath) (st su : String) (k : Nat) : FsPath :=
  dd ++ [dupName st su k]

/-- Number of filesystem entries; a bound on how many duplicate
candidates can be taken. -/
def sizeFS (fs : FS) : Nat :=
  fs.files.length + fs.dirs.length

/-- The `while True` search of `move_file`: try counters `k`, `k+1`, …
returning the first candidate that does not exist.  The recursion is run
with fuel `sizeFS fs + 1`, which `findFree_finds_free` below proves
sufficient, so the fuel-exhausted branch is never reached. -/
def findFree (fs : FS) (dd : FsPath) (st su : String) : Nat → Nat → FsPath
  | 0, k => dupCand dd st su k
  | fuel + 1, k =>
    if PathExists fs (dupCand dd st su k) then findFree fs dd st su fuel (k + 1)
    else dupCand dd st su k

/-- Destination path chosen by `move_file` after the `mkdir`: the plain
`dest_dir / src.name` if free, otherwise the first free disambiguated
name `stem_1`, `stem_2`, …  (suffix preserved). -/
def finalDest (fs : FS) (dd : FsPath) (nm : String) : FsPath :=
  let d0 := dd ++ [nm]
  if PathExists fs d0 then
    findFree fs dd (String.mk (splitStem nm.data).1)
      (String.mk (splitStem nm.data).2) (sizeFS fs + 1) 1
  else d0

/-- Name of the file at a path (its last component). -/
def entryName (p : FsPath) : String :=
  p.getLastD ("")

/-- Removal of the first occurrence of a file entry from a listing (the
effect of `shutil.move` on the source location). -/
def eraseFile : List Entry → Entry → List Entry
  | [], _ => []
  | x :: xs, e => if x = e then xs else x :: eraseFile xs e

/-- Model of `move_file(src, dest_dir)`: create the destination
directory, compute the collision-free destination, and relocate the
source file (same identity, new path) there. -/
def move_file (fs : FS) (src : Entry) (dd : FsPath) : FS :=
  let fs1 := mkdirP fs dd
  let d := finalDest fs1 dd (entryName src.1)
  { files := (d, src.2) :: eraseFile fs1.files src, dirs := fs1.dirs }

/-- A resolver models `Path.resolve`; `none` is the resolution failure
(FileNotFoundError / ValueError) the source catches. -/
abbrev Resolver := FsPath → Option FsPath

/-- The pure resolver: no symlinks, no concurrent mutation. -/
def pureRes : Resolver := fun p => some p

/-- An rglob hit: strictly below the root. -/
def underB (root p : FsPath) : Bool :=
  root.isPrefixOf p && !(decide (root = p))

/-- The exclusion test of `iter_candidate_files`: resolve the entry and
the exclusion directory; skip when the resolved parent differs from the
exclusion directory while the exclusion directory is a proper ancestor
of the resolved entry.  A resolution failure means no exclusion
(the `except … pass` branch: fail open). -/
def skipByExcl (res : Resolver) (excl p : FsPath) : Bool :=
  match res p, res excl with
  | some pr, some er =>
    !(decide (pr.dropLast = er)) && er.isPrefixOf pr && !(decide (er = pr))
  | _, _ => false

/-- Model of `iter_candidate_files(root, exclude_path)`: the regular
files strictly below the root, minus those the exclusion test skips. -/
def iter_candidate_files (res : Resolver) (fs : FS) (root : FsPath)
    (excl : Option FsPath) : List Entry :=
  fs.files.filter (fun e =>
    underB root e.1 &&
      (match excl with
       | none => true
       | some ex => !(skipByExcl res ex e.1)))

/-- One iteration of the `classify_photos` loop on state
(filesystem, moved, skipped). -/
def classifyStep (res : Resolver) (destRoot : FsPath)
    (st : FS × Nat × Nat) (e : Entry) : FS × Nat × Nat :=
  match extract_date_from_name (entryName e.1) with
  | none => (st.1, st.2.1, st.2.2 + 1)
  | some d =>
    let destDir := destRoot ++ [d]
    match res e.1, res destDir with
    | some pr, some dr =>
      if pr.dropLast = dr then (st.1, st.2.1, st.2.2 + 1)
      else (move_file st.1 e destDir, st.2.1 + 1, st.2.2)
    | _, _ => (st.1, st.2.1, st.2.2 + 1)

/-- Model of `classify_photos(search_root, destination_root)` with an
explicit resolver. -/
def classify_photosR (res : Resolver) (fs : FS) (searchRoot destRoot : FsPath) :
    FS × Nat × Nat :=
  (iter_candidate_files res fs searchRoot (some destRoot)).foldl
    (classifyStep res destRoot) (fs, 0, 0)

/-- Model of `classify_photos` under the pure resolver. -/
def classify_photos (fs : FS) (searchRoot destRoot : FsPath) : FS × Nat × Nat :=
  classify_photosR pureRes fs searchRoot destRoot

/-- Render a path for the error message. -/
def pathString (p : FsPath) : String :=
  String.intercalate ("/") p

/-- Model of `main()`: check that the root folder exists (else fail with
the error that aborts the process with non-zero status), create the
photos folder, and run the day-level classifier over the application
directory with the photos folder as destination and exclusion.  The log
file is out of scope of the data model (spec §1), so the returned
filesystem covers the photo tree only. -/
def main (fs : FS) (appDir : FsPath) : FS × Except String (Nat × Nat) :=
  let rootFolder := appDir ++ [ROOT_FOLDER_NAME]
  let photosFolder := rootFolder ++ [PHOTOS_FOLDER_NAME]
  if PathExists fs rootFolder then
    let fs1 := mkdirP fs photosFolder
    let r := classify_photos fs1 appDir photosFolder
    (r.1, Except.ok (r.2.1, r.2.2))
  else
    (fs, Except.error ("找不到資料夾：" ++ pathString rootFolder))

/-- Well-formed filesystem: file paths are pairwise distinct. -/
def Wf (fs : FS) : Prop :=
  (fs.files.map Prod.fst).Nodup

instance (fs : FS) : Decidable (Wf fs) := by
  unfold Wf; exact inferInstance

/-- A path whose name carries an extractable date. -/
def HasDate (p : FsPath) : Prop :=
  ∃ d, extract_date_from_name (entryName p) = some d

/-- The pure-resolver exclusion condition: the parent differs from the
exclusion directory while the exclusion directory is a proper ancestor.
A file in this position is skipped by discovery on a later run. -/
def ShieldedBy (E p : FsPath) : Prop :=
  p.dropLast ≠ E ∧ E <+: p ∧ E ≠ p

/-- Classifier loop invariant: every dated file under the root is either
already shielded by the destination subtree or still awaits processing. -/
def Inv (root dest : FsPath) (fs : FS) (rem : List Entry) : Prop :=
  ∀ e ∈ fs.files, underB root e.1 = true → HasDate e.1 →
    ShieldedBy dest e.1 ∨ e ∈ rem

/-- The always-failing resolver: every resolution raises. -/
def resNone : Resolver := fun _ => none

/-- Concrete mover scenario: destination directory `d` already holds
`a.jpg`, and a file also named `a.jpg` is moved in from `s`. -/
def wMoverFS : FS := { files := [((["d", "a.jpg"]), 5)], dirs := [(["d"])] }

def wMoverSrc : Entry := ((["s", "a.jpg"]), 9)

/-- Concrete discovery scenario: one file directly in the exclusion
directory `r/E`, one file in its subdirectory `r/E/sub`. -/
def wDiscFS : FS :=
  { files := [((["r", "E", "x.jpg"]), 1), ((["r", "E", "sub", "y.jpg"]), 2)],
    dirs := [(["r"]), (["r", "E"]), (["r", "E", "sub"])] }

/-- Concrete classifier scenario: one dated file and one undated file
under root `r`, destination root `r/p`. -/
def wClassFS : FS :=
  { files := [((["r", "a", "20240101_1200.jpg"]), 1), ((["r", "note.txt"]), 2)],
    dirs := [(["r"]), (["r", "a"])] }

/-- Concrete orchestrator scenario: application directory `C` holding the
root folder and one dated photo in subdirectory `A`. -/
def wMainFS : FS :=
  { files := [((["C", "A", "20240101_1200.jpg"]), 0)],
    dirs := [(["C"]), (["C", "A"]), (["C", "元修檔案"])] }

/-- A dated entry used in the resolution-failure scenario. -/
def wDatedEntry : Entry := ((["r", "20240101_1200.jpg"]), 0)

/-- Decimal parse, a left inverse of the decimal rendering. -/
def ofDecChars (l : List Char) : Nat :=
  l.foldl (fun a c => a * 10 + (c.toNat - 48)) 0

theorem digitChar_toNat_eq : ∀ n, n < 10 → (Nat.digitChar n).toNat = 48 + n := by
  decide

theorem ofDecChars_natReprAux :
    ∀ fuel n, n < fuel → ofDecChars (natReprAux fuel n) = n := by
  intro fuel
  induction fuel with
  | zero => intro n h; omega
  | succ fuel ih =>
    intro n h
    by_cases h10 : n < 10
    · simp only [natReprAux, if_pos h10, ofDecChars, List.foldl]
      rw [digitChar_toNat_eq n h10]; omega
    · have hdiv : n / 10 < fuel := by
        have := Nat.div_lt_self (by omega : 0 < n) (by omega : 1 < 10)
        omega
      simp only [natReprAux, if_neg h10]
      unfold ofDecChars
      rw [List.foldl_append, List.foldl_cons, List.foldl_nil]
      have hih := ih (n / 10) hdiv
      unfold ofDecChars at hih
      rw [hih, digitChar_toNat_eq (n % 10) (Nat.mod_lt n (by omega))]
      omega

theorem natRepr_injective : Function.Injective natRepr := by
  intro a b h
  have hd : natReprAux (a + 1) a = natReprAux (b + 1) b := congrArg String.data h
  have := congrArg ofDecChars hd
  rwa [ofDecChars_natReprAux (a + 1) a (by omega),
    ofDecChars_natReprAux (b + 1) b (by omega)] at this

theorem string_data_append (s t : String) : (s ++ t).data = s.data ++ t.data := by
  cases s; cases t; rfl

theorem dupName_injective (st su : String) : Function.Injective (dupName st su) := by
  intro a b h
  have hd := congrArg String.data h
  simp only [dupName, string_data_append] at hd
  have h1 := List.append_cancel_right hd
  have h2 := List.append_cancel_left h1
  exact natRepr_injective (congrArg String.mk h2)

theorem dupCand_injective (dd : FsPath) (st su : String) :
    Function.Injective (dupCand dd st su) := by
  intro a b h
  have h1 : [dupName st su a] = [dupName st su b] := List.append_cancel_left h
  have h2 : dupName st su a = dupName st su b := by simpa using h1
  exact dupName_injective st su h2

theorem pathExists_iff_mem (fs : FS) (p : FsPath) :
    PathExists fs p ↔ p ∈ fs.files.map Prod.fst ++ fs.dirs := by
  simp [PathExists, List.mem_append, List.mem_map]

/-- Pigeonhole: among the first `sizeFS fs + 1` duplicate candidates, at
least one does not exist, so the disambiguation search terminates within
that fuel. -/
theorem exists_free_dup (fs : FS) (dd : FsPath) (st su : String) :
    ∃ j, j ≤ sizeFS fs ∧ ¬ PathExists fs (dupCand dd st su (1 + j)) := by
  by_contra hcon
  push_neg at hcon
  have hinj : Function.Injective (fun j : Nat => dupCand dd st su (1 + j)) := by
    intro a b hab
    have := dupCand_injective dd st su hab
    omega
  have hsub : (Finset.range (sizeFS fs + 1)).image (fun j => dupCand dd st su (1 + j)) ⊆
      (fs.files.map Prod.fst ++ fs.dirs).toFinset := by
    intro x hx
    rw [Finset.mem_image] at hx
    obtain ⟨j, hj, rfl⟩ := hx
    rw [Finset.mem_range] at hj
    rw [List.mem_toFinset]
    exact (pathExists_iff_mem fs _).mp (hcon j (by omega))
  have hcard := Finset.card_le_card hsub
  rw [Finset.card_image_of_injective _ hinj, Finset.card_range] at hcard
  have hlen := List.toFinset_card_le (fs.files.map Prod.fst ++ fs.dirs)
  rw [List.length_append, List.length_map] at hlen
  simp only [sizeFS] at hcard ⊢
  omega

theorem findFree_least (fs : FS) (dd : FsPath) (st su : String) :
    ∀ fuel k j0, j0 < fuel →
      ¬ PathExists fs (dupCand dd st su (k + j0)) →
      ∃ j, j ≤ j0 ∧ ¬ PathExists fs (dupCand dd st su (k + j)) ∧
        (∀ i, i < j → PathExists fs (dupCand dd st su (k + i))) ∧
        findFree fs dd st su fuel k = dupCand dd st su (k + j) := by
  intro fuel
  induction fuel with
  | zero => intro k j0 h; omega
  | succ fuel ih =>
    intro k j0 hj0 hfree
    by_cases h1 : PathExists fs (dupCand dd st su k)
    · have hne : j0 ≠ 0 := by
        rintro rfl
        exact hfree (by simpa using h1)
      obtain ⟨j0', rfl⟩ : ∃ j0', j0 = j0' + 1 := ⟨j0 - 1, by omega⟩
      have hfree' : ¬ PathExists fs (dupCand dd st su ((k + 1) + j0')) := by
        have he : (k + 1) + j0' = k + (j0' + 1) := by omega
        rw [he]; exact hfree
      obtain ⟨j, hle, hf, hall, heq⟩ := ih (k + 1) j0' (by omega) hfree'
      refine ⟨j + 1, by omega, ?_, ?_, ?_⟩
      · have he : k + (j + 1) = (k + 1) + j := by omega
        rw [he]; exact hf
      · intro i hi
        match i with
        | 0 => simpa using h1
        | i + 1 =>
          have he : k + (i + 1) = (k + 1) + i := by omega
          rw [he]; exact hall i (by omega)
      · rw [findFree, if_pos h1, heq]
        congr 1
        omega
    · refine ⟨0, by omega, by simpa using h1, ?_, ?_⟩
      · intro i hi
        exact absurd hi (by omega)
      · rw [findFree, if_neg h1, Nat.add_zero]

theorem findFree_shape (fs : FS) (dd : FsPath) (st su : String) :
    ∀ fuel k, ∃ j, findFree fs dd st su fuel k = dupCand dd st su j := by
  intro fuel
  induction fuel with
  | zero => intro k; exact ⟨k, rfl⟩
  | succ fuel ih =>
    intro k
    by_cases h1 : PathExists fs (dupCand dd st su k)
    · obtain ⟨j, hj⟩ := ih (k + 1)
      exact ⟨j, by rw [findFree, if_pos h1, hj]⟩
    · exact ⟨k, by rw [findFree, if_neg h1]⟩

/-- The chosen destination of a move never overwrites an existing entry. -/
theorem finalDest_not_exists (fs : FS) (dd : FsPath) (nm : String) :
    ¬ PathExists fs (finalDest fs dd nm) := by
  unfold finalDest
  by_cases h : PathExists fs (dd ++ [nm])
  · rw [if_pos h]
    obtain ⟨j, hj, hfree⟩ :=
      exists_free_dup fs dd (String.mk (splitStem nm.data).1) (String.mk (splitStem nm.data).2)
    obtain ⟨j', _, hf, _, heq⟩ :=
      findFree_least fs dd _ _ (sizeFS fs + 1) 1 j (by omega) hfree
    rw [heq]; exact hf
  · rw [if_neg h]; exact h

/-- The chosen destination of a move is directly inside the destination
directory. -/
theorem finalDest_shape (fs : FS) (dd : FsPath) (nm : String) :
    ∃ s, finalDest fs dd nm = dd ++ [s] := by
  unfold finalDest
  by_cases h : PathExists fs (dd ++ [nm])
  · rw [if_pos h]
    obtain ⟨j, hj⟩ :=
      findFree_shape fs dd (String.mk (splitStem nm.data).1)
        (String.mk (splitStem nm.data).2) (sizeFS fs + 1) 1
    exact ⟨_, hj⟩
  · rw [if_neg h]; exact ⟨nm, rfl⟩

/-- Claim C1: on the spec's four concrete filenames, the matcher returns
exactly "20241019", "20250831", "20251028" and no date respectively. -/
theorem extract_date_examples :
    extract_date_from_name ("20241019_111535.jpg") = some ("20241019") ∧
    extract_date_from_name ("Screenshot_20250831_203240_LINE.png") = some ("20250831") ∧
    extract_date_from_name ("VideoCapture_20251028_foo.mp4") = some ("20251028") ∧
    extract_date_from_name ("random_photo.jpg") = none := by
  refine ⟨by decide, by decide, by decide, by decide⟩

/-- Claim C10: a screenshot-shaped name with no tail after the time field
yields no date: the screenshot rule demands a non-empty tail after the
final underscore, the stem does not begin with a digit (pattern a fails)
and does not begin with the videocapture prefix (pattern c fails). -/
theorem screenshot_without_tail_no_date :
    extract_date_from_name ("Screenshot_20250831_203240.png") = none := by
  decide

/-- Claim C3: when `dest_dir/name` already exists, the mover places the
source at `dest_dir/stem_k.ext` for the smallest unused counter `k ≥ 1`
(extension preserved by construction of `dupCand`), the chosen path
overwrites no existing entry, and the move relocates exactly the source
file there.  The search is a total function, hence deterministic and
terminating. -/
theorem mover_collision_spec (fs : FS) (src : Entry) (dd : FsPath)
    (h : PathExists (mkdirP fs dd) (dd ++ [entryName src.1])) :
    ∃ k, 1 ≤ k ∧
      finalDest (mkdirP fs dd) dd (entryName src.1) =
        dupCand dd (String.mk (splitStem (entryName src.1).data).1)
          (String.mk (splitStem (entryName src.1).data).2) k ∧
      ¬ PathExists (mkdirP fs dd) (finalDest (mkdirP fs dd) dd (entryName src.1)) ∧
      (∀ i, 1 ≤ i → i < k →
        PathExists (mkdirP fs dd)
          (dupCand dd (String.mk (splitStem (entryName src.1).data).1)
            (String.mk (splitStem (entryName src.1).data).2) i)) ∧
      (move_file fs src dd).files =
        (finalDest (mkdirP fs dd) dd (entryName src.1), src.2) ::
          eraseFile (mkdirP fs dd).files src := by
  obtain ⟨j, hj, hfree⟩ :=
    exists_free_dup (mkdirP fs dd) dd (String.mk (splitStem (entryName src.1).data).1)
      (String.mk (splitStem (entryName src.1).data).2)
  obtain ⟨j', hle, hf, hall, heq⟩ :=
    findFree_least (mkdirP fs dd) dd _ _ (sizeFS (mkdirP fs dd) + 1) 1 j (by omega) hfree
  refine ⟨1 + j', by omega, ?_, finalDest_not_exists _ _ _, ?_, rfl⟩
  · unfold finalDest
    rw [if_pos h]
    exact heq
  · intro i h1 h2
    have hi : i = 1 + (i - 1) := by omega
    rw [hi]
    exact hall (i - 1) (by omega)

/-- Witness for C3: in `wMoverFS` the name `a.jpg` is taken in `d`. -/
theorem mover_collision_check :
    PathExists (mkdirP wMoverFS (["d"])) ((["d"]) ++ [entryName wMoverSrc.1]) ∧
    (∃ k, 1 ≤ k ∧
      finalDest (mkdirP wMoverFS (["d"])) (["d"]) (entryName wMoverSrc.1) =
        dupCand (["d"]) (String.mk (splitStem (entryName wMoverSrc.1).data).1)
          (String.mk (splitStem (entryName wMoverSrc.1).data).2) k ∧
      ¬ PathExists (mkdirP wMoverFS (["d"]))
        (finalDest (mkdirP wMoverFS (["d"])) (["d"]) (entryName wMoverSrc.1)) ∧
      (∀ i, 1 ≤ i → i < k →
        PathExists (mkdirP wMoverFS (["d"]))
          (dupCand (["d"]) (String.mk (splitStem (entryName wMoverSrc.1).data).1)
            (String.mk (splitStem (entryName wMoverSrc.1).data).2) i)) ∧
      (move_file wMoverFS wMoverSrc (["d"])).files =
        (finalDest (mkdirP wMoverFS (["d"])) (["d"]) (entryName wMoverSrc.1), wMoverSrc.2) ::
          eraseFile (mkdirP wMoverFS (["d"])).files wMoverSrc) :=
  ⟨by decide, mover_collision_spec wMoverFS wMoverSrc (["d"]) (by decide)⟩

/-- Membership in the discovery listing, unfolded. -/
theorem mem_iter_iff (res : Resolver) (fs : FS) (root E : FsPath) (e : Entry) :
    e ∈ iter_candidate_files res fs root (some E) ↔
      e ∈ fs.files ∧ underB root e.1 = true ∧ ¬ skipByExcl res E e.1 = true := by
  simp [iter_candidate_files, List.mem_filter]

theorem underB_iff (root p : FsPath) :
    underB root p = true ↔ root <+: p ∧ root ≠ p := by
  simp [underB, List.isPrefixOf_iff_prefix]

theorem skipByExcl_pure (E p : FsPath) :
    skipByExcl pureRes E p = true ↔ p.dropLast ≠ E ∧ E <+: p ∧ E ≠ p := by
  simp [skipByExcl, pureRes, List.isPrefixOf_iff_prefix, and_assoc]

/-- Claim C4: under the pure resolver, a regular file under the root
whose parent is exactly the exclusion directory is yielded; a file whose
parent is a proper descendant of the exclusion directory is never
yielded; and everything yielded is a regular file of the state. -/
theorem discovery_exclusion_spec (fs : FS) (root E : FsPath) :
    (∀ e ∈ fs.files, e.1.dropLast = E → underB root e.1 = true →
      e ∈ iter_candidate_files pureRes fs root (some E)) ∧
    (∀ e : Entry, E <+: e.1.dropLast → E ≠ e.1.dropLast →
      e ∉ iter_candidate_files pureRes fs root (some E)) ∧
    (∀ e ∈ iter_candidate_files pureRes fs root (some E), e ∈ fs.files) := by
  refine ⟨?_, ?_, ?_⟩
  · intro e hmem hpar hub
    rw [mem_iter_iff]
    refine ⟨hmem, hub, ?_⟩
    intro hskip
    exact ((skipByExcl_pure E e.1).mp hskip).1 hpar
  · intro e hpre hne hmem
    obtain ⟨-, -, hskip⟩ := (mem_iter_iff pureRes fs root E e).mp hmem
    apply hskip
    rw [skipByExcl_pure]
    refine ⟨fun hh => hne hh.symm, hpre.trans (List.dropLast_prefix e.1), ?_⟩
    intro hEe
    rw [hEe] at hpre hne
    have hlen := hpre.length_le
    rw [List.length_dropLast] at hlen
    have hz : e.1.length = 0 := by omega
    rw [List.length_eq_zero] at hz
    rw [hz] at hne
    exact hne rfl
  · intro e he
    exact ((mem_iter_iff pureRes fs root E e).mp he).1

/-- Witness for C4 on `wDiscFS`: `r/E/x.jpg` is yielded, `r/E/sub/y.jpg`
is not, and membership in the listing implies being a regular file. -/
theorem discovery_exclusion_check :
    ((["r", "E", "x.jpg"]), 1) ∈
      iter_candidate_files pureRes wDiscFS (["r"]) (some (["r", "E"])) ∧
    ((["r", "E", "sub", "y.jpg"]), 2) ∉
      iter_candidate_files pureRes wDiscFS (["r"]) (some (["r", "E"])) ∧
    ((["r", "E", "x.jpg"]), 1) ∈ wDiscFS.files :=
  ⟨(discovery_exclusion_spec wDiscFS (["r"]) (["r", "E"])).1 _ (by decide) (by decide) (by decide),
   (discovery_exclusion_spec wDiscFS (["r"]) (["r", "E"])).2.1 _ (by decide) (by decide),
   (discovery_exclusion_spec wDiscFS (["r"]) (["r", "E"])).2.2 _
     ((discovery_exclusion_spec wDiscFS (["r"]) (["r", "E"])).1 _ (by decide) (by decide) (by decide))⟩

/-- Claim C9: the exclusion check is fail-open.  If resolving the entry
or the exclusion directory fails, the file is yielded (not excluded). -/
theorem discovery_failopen (res : Resolver) (fs : FS) (root E : FsPath) (e : Entry)
    (hmem : e ∈ fs.files) (hunder : underB root e.1 = true)
    (hres : res e.1 = none ∨ res E = none) :
    e ∈ iter_candidate_files res fs root (some E) := by
  have hskipf : skipByExcl res E e.1 = false := by
    unfold skipByExcl
    rcases hres with h | h
    · rw [h]
    · rw [h]
      cases res e.1 <;> rfl
  rw [mem_iter_iff]
  rw [hskipf]
  exact ⟨hmem, hunder, by simp⟩

/-- Witness for C9: with the always-failing resolver, the file inside the
exclusion subtree of `wDiscFS` is nevertheless yielded. -/
theorem discovery_failopen_check :
    ((["r", "E", "sub", "y.jpg"]), 2) ∈
      iter_candidate_files resNone wDiscFS (["r"]) (some (["r", "E"])) :=
  discovery_failopen resNone wDiscFS (["r"]) (["r", "E"]) _
    (by decide) (by decide) (Or.inl rfl)

/-- Claim C8: if the date was extracted but resolving the file's path or
the destination directory fails during the already-sorted check, the
entry only increments the skipped counter — the filesystem and the moved
counter are untouched — and the fold continues with the next entries. -/
theorem classify_resolve_failure_skips (res : Resolver) (destRoot : FsPath)
    (fs : FS) (m s : Nat) (e : Entry) (rem : List Entry) (d : String)
    (hd : extract_date_from_name (entryName e.1) = some d)
    (hres : res e.1 = none ∨ res (destRoot ++ [d]) = none) :
    (e :: rem).foldl (classifyStep res destRoot) (fs, m, s) =
      rem.foldl (classifyStep res destRoot) (fs, m, s + 1) := by
  have hstep : classifyStep res destRoot (fs, m, s) e = (fs, m, s + 1) := by
    simp only [classifyStep, hd]
    rcases hres with h | h
    · rw [h]
    · rw [h]
      cases res e.1 <;> rfl
  rw [List.foldl_cons, hstep]

/-- Witness for C8: a dated entry under the always-failing resolver is
skipped and the run proceeds. -/
theorem classify_resolve_failure_check :
    extract_date_from_name (entryName wDatedEntry.1) = some ("20240101") ∧
    ([wDatedEntry]).foldl (classifyStep resNone (["p"])) (wClassFS, 3, 4) =
      ([] : List Entry).foldl (classifyStep resNone (["p"])) (wClassFS, 3, 4 + 1) :=
  ⟨by decide,
   classify_resolve_failure_skips resNone (["p"]) wClassFS 3 4 wDatedEntry []
     ("20240101") (by decide) (Or.inl rfl)⟩

/-- The files component of a move, unfolded. -/
theorem move_file_files (fs : FS) (e : Entry) (dd : FsPath) :
    (move_file fs e dd).files =
      (finalDest (mkdirP fs dd) dd (entryName e.1), e.2) :: eraseFile fs.files e := rfl

theorem eraseFile_sublist (l : List Entry) (e : Entry) :
    List.Sublist (eraseFile l e) l := by
  induction l with
  | nil => exact List.Sublist.refl []
  | cons x xs ih =>
    by_cases hxe : x = e
    · rw [eraseFile, if_pos hxe]
      exact (List.Sublist.refl xs).cons x
    · rw [eraseFile, if_neg hxe]
      exact ih.cons₂ x

theorem mem_of_mem_eraseFile {a : Entry} {l : List Entry} {e : Entry}
    (h : a ∈ eraseFile l e) : a ∈ l :=
  (eraseFile_sublist l e).subset h

theorem mem_eraseFile_of_ne {a e : Entry} (l : List Entry) (h : a ≠ e) :
    a ∈ eraseFile l e ↔ a ∈ l := by
  induction l with
  | nil => rfl
  | cons x xs ih =>
    by_cases hxe : x = e
    · rw [eraseFile, if_pos hxe]
      constructor
      · exact fun hm => List.mem_cons_of_mem x hm
      · intro hm
        rcases List.mem_cons.mp hm with rfl | hm2
        · exact absurd hxe h
        · exact hm2
    · rw [eraseFile, if_neg hxe]
      constructor
      · intro hm
        rcases List.mem_cons.mp hm with rfl | hm2
        · exact List.mem_cons_self a xs
        · exact List.mem_cons_of_mem x (ih.mp hm2)
      · intro hm
        rcases List.mem_cons.mp hm with rfl | hm2
        · exact List.mem_cons_self a _
        · exact List.mem_cons_of_mem x (ih.mpr hm2)

theorem nodup_mem_eraseFile {a e : Entry} {l : List Entry} (hnd : l.Nodup) :
    a ∈ eraseFile l e ↔ a ≠ e ∧ a ∈ l := by
  induction l with
  | nil => simp [eraseFile]
  | cons x xs ih =>
    obtain ⟨hx, hxs⟩ := List.nodup_cons.mp hnd
    by_cases hxe : x = e
    · rw [eraseFile, if_pos hxe]
      constructor
      · intro hm
        refine ⟨?_, List.mem_cons_of_mem x hm⟩
        intro rfl2
        rw [rfl2, ← hxe] at hm
        exact hx hm
      · rintro ⟨hne, hm⟩
        rcases List.mem_cons.mp hm with rfl | hm2
        · exact absurd hxe hne
        · exact hm2
    · rw [eraseFile, if_neg hxe]
      constructor
      · intro hm
        rcases List.mem_cons.mp hm with rfl | hm2
        · exact ⟨hxe, List.mem_cons_self a xs⟩
        · obtain ⟨hne, hm3⟩ := (ih hxs).mp hm2
          exact ⟨hne, List.mem_cons_of_mem x hm3⟩
      · rintro ⟨hne, hm⟩
        rcases List.mem_cons.mp hm with rfl | hm2
        · exact List.mem_cons_self a _
        · exact List.mem_cons_of_mem x ((ih hxs).mpr ⟨hne, hm2⟩)

theorem perm_cons_eraseFile {c : Entry} {l : List Entry} (h : c ∈ l) :
    l.Perm (c :: eraseFile l c) := by
  induction l with
  | nil => exact absurd h (List.not_mem_nil c)
  | cons x xs ih =>
    by_cases hxc : x = c
    · rw [eraseFile, if_pos hxc, hxc]
    · rw [eraseFile, if_neg hxc]
      have hcx : c ∈ xs := by
        rcases List.mem_cons.mp h with rfl | h2
        · exact absurd rfl hxc
        · exact h2
      exact ((ih hcx).cons x).trans (List.Perm.swap c x (eraseFile xs c))

/-- A move preserves well-formedness: the fresh destination collides with
no remaining path. -/
theorem wf_move (fs : FS) (e : Entry) (dd : FsPath) (hw : Wf fs) :
    Wf (move_file fs e dd) := by
  unfold Wf
  rw [move_file_files]
  rw [List.map_cons, List.nodup_cons]
  constructor
  · intro hmem
    rw [List.mem_map] at hmem
    obtain ⟨e', he', hfst⟩ := hmem
    have hef : e' ∈ fs.files := mem_of_mem_eraseFile he'
    exact finalDest_not_exists (mkdirP fs dd) dd (entryName e.1)
      (Or.inl ⟨e', hef, hfst⟩)
  · exact hw.sublist ((eraseFile_sublist fs.files e).map Prod.fst)

/-- Each classifier step is a pure skip or a move into the date folder. -/
theorem step_cases (res : Resolver) (dest : FsPath) (st : FS × Nat × Nat) (e : Entry) :
    classifyStep res dest st e = (st.1, st.2.1, st.2.2 + 1) ∨
    ∃ d, extract_date_from_name (entryName e.1) = some d ∧
      classifyStep res dest st e = (move_file st.1 e (dest ++ [d]), st.2.1 + 1, st.2.2) := by
  rcases hd : extract_date_from_name (entryName e.1) with _ | d
  · left
    simp only [classifyStep, hd]
  · rcases h1 : res e.1 with _ | pr
    · left
      simp only [classifyStep, hd]
      rw [h1]
    · rcases h2 : res (dest ++ [d]) with _ | dr
      · left
        simp only [classifyStep, hd]
        rw [h1, h2]
      · by_cases hif : pr.dropLast = dr
        · left
          simp only [classifyStep, hd]
          rw [h1, h2]
          exact if_pos hif
        · right
          refine ⟨d, rfl, ?_⟩
          simp only [classifyStep, hd]
          rw [h1, h2]
          exact if_neg hif

theorem shielded_of_parent (dest : FsPath) (d : String) (p : FsPath)
    (h : p.dropLast = dest ++ [d]) : ShieldedBy dest p := by
  have hp : p ≠ [] := by
    intro hnil
    rw [hnil] at h
    have := congrArg List.length h
    simp at this
  have hlen1 : p.length - 1 = dest.length + 1 := by
    have := congrArg List.length h
    simpa [List.length_dropLast] using this
  have hppos : 0 < p.length := List.length_pos.mpr hp
  refine ⟨?_, ?_, ?_⟩
  · rw [h]
    intro hh
    have := congrArg List.length hh
    simp at this
  · have hpre : dest <+: p.dropLast := by
      rw [h]
      exact List.prefix_append dest [d]
    exact hpre.trans (List.dropLast_prefix p)
  · intro hh
    have := congrArg List.length hh
    omega

theorem shielded_of_move (dest : FsPath) (d nm : String) :
    ShieldedBy dest ((dest ++ [d]) ++ [nm]) :=
  shielded_of_parent dest d _ (List.dropLast_concat ..)

/-- Folding the classifier over pending entries preserves
well-formedness and establishes the invariant with nothing pending. -/
theorem classify_fold_inv (root dest : FsPath) :
    ∀ (rem : List Entry) (fs : FS) (m s : Nat),
      Wf fs → (rem.map Prod.fst).Nodup → Inv root dest fs rem →
      Wf (rem.foldl (classifyStep pureRes dest) (fs, m, s)).1 ∧
      Inv root dest (rem.foldl (classifyStep pureRes dest) (fs, m, s)).1 [] := by
  intro rem
  induction rem with
  | nil => exact fun fs m s hw _ hinv => ⟨hw, hinv⟩
  | cons c rem ih =>
    intro fs m s hw hnd hinv
    have hndt : (rem.map Prod.fst).Nodup := (List.nodup_cons.mp hnd).2
    rw [List.foldl_cons]
    rcases hscd : extract_date_from_name (entryName c.1) with _ | d
    · have hstep : classifyStep pureRes dest (fs, m, s) c = (fs, m, s + 1) := by
        simp only [classifyStep, hscd]
      rw [hstep]
      refine ih fs m (s + 1) hw hndt ?_
      intro e he hu hd
      rcases hinv e he hu hd with h | h
      · exact Or.inl h
      · rcases List.mem_cons.mp h with rfl | h2
        · obtain ⟨d', hd'⟩ := hd
          rw [hscd] at hd'
          exact absurd hd' (by simp)
        · exact Or.inr h2
    · by_cases hpar : c.1.dropLast = dest ++ [d]
      · have hstep : classifyStep pureRes dest (fs, m, s) c = (fs, m, s + 1) := by
          simp only [classifyStep, hscd, pureRes]
          rw [if_pos hpar]
        rw [hstep]
        refine ih fs m (s + 1) hw hndt ?_
        intro e he hu hd
        rcases hinv e he hu hd with h | h
        · exact Or.inl h
        · rcases List.mem_cons.mp h with rfl | h2
          · exact Or.inl (shielded_of_parent dest d e.1 hpar)
          · exact Or.inr h2
      · have hstep : classifyStep pureRes dest (fs, m, s) c =
            (move_file fs c (dest ++ [d]), m + 1, s) := by
          simp only [classifyStep, hscd, pureRes]
          rw [if_neg hpar]
        rw [hstep]
        refine ih _ (m + 1) s (wf_move fs c (dest ++ [d]) hw) hndt ?_
        intro e he hu hd
        rw [move_file_files] at he
        rcases List.mem_cons.mp he with rfl | he2
        · obtain ⟨nm, hnm⟩ :=
            finalDest_shape (mkdirP fs (dest ++ [d])) (dest ++ [d]) (entryName c.1)
        -- the moved file sits directly in the date folder, hence shielded
          left
          show ShieldedBy dest (finalDest (mkdirP fs (dest ++ [d])) (dest ++ [d]) (entryName c.1))
          rw [hnm]
          exact shielded_of_move dest d nm
        · have hnodupf : fs.files.Nodup := hw.of_map
          obtain ⟨hne, hef⟩ := (nodup_mem_eraseFile hnodupf).mp he2
          rcases hinv e hef hu hd with h | h
          · exact Or.inl h
          · rcases List.mem_cons.mp h with rfl | h2
            · exact absurd rfl hne
            · exact Or.inr h2

/-- Claim C2: a second classifier run immediately after a completed first
run over the same search root and destination root moves nothing — every
file the first run moved or recognised as sorted is shielded from
discovery, so every second-run candidate is dateless. -/
theorem classify_idempotent (fs : FS) (root dest : FsPath) (hw : Wf fs) :
    (classify_photos (classify_photos fs root dest).1 root dest).2.1 = 0 := by
  have hnd1 : ((iter_candidate_files pureRes fs root (some dest)).map Prod.fst).Nodup := by
    have hsub : List.Sublist (iter_candidate_files pureRes fs root (some dest)) fs.files :=
      List.filter_sublist fs.files
    exact hw.sublist (hsub.map Prod.fst)
  have hinv0 : Inv root dest fs (iter_candidate_files pureRes fs root (some dest)) := by
    intro e he hu hd
    by_cases hskip : skipByExcl pureRes dest e.1 = true
    · exact Or.inl ((skipByExcl_pure dest e.1).mp hskip)
    · right
      rw [mem_iter_iff]
      exact ⟨he, hu, hskip⟩
  obtain ⟨hw1, hinv1⟩ :=
    classify_fold_inv root dest (iter_candidate_files pureRes fs root (some dest)) fs 0 0
      hw hnd1 hinv0
  have hnone : ∀ e ∈ iter_candidate_files pureRes (classify_photos fs root dest).1 root
      (some dest), extract_date_from_name (entryName e.1) = none := by
    intro e he
    obtain ⟨hef, hu, hskip⟩ :=
      (mem_iter_iff pureRes (classify_photos fs root dest).1 root dest e).mp he
    rcases hx : extract_date_from_name (entryName e.1) with _ | d
    · rfl
    · exfalso
      rcases hinv1 e hef hu ⟨d, hx⟩ with hsh | hmem
      · exact hskip ((skipByExcl_pure dest e.1).mpr hsh)
      · exact absurd hmem (List.not_mem_nil e)
  have hzero : ∀ (l : List Entry) (st : FS × Nat × Nat),
      (∀ e ∈ l, extract_date_from_name (entryName e.1) = none) →
      (l.foldl (classifyStep pureRes dest) st).2.1 = st.2.1 := by
    intro l
    induction l with
    | nil => exact fun st _ => rfl
    | cons c rem ih =>
      intro st h
      have hst : classifyStep pureRes dest st c = (st.1, st.2.1, st.2.2 + 1) := by
        simp only [classifyStep, h c (List.mem_cons_self c rem)]
      rw [List.foldl_cons, hst]
      exact ih _ (fun e he => h e (List.mem_cons_of_mem c he))
  exact hzero (iter_candidate_files pureRes (classify_photos fs root dest).1 root (some dest))
    ((classify_photos fs root dest).1, 0, 0) hnone

/-- Witness for C2 on the concrete tree `wClassFS`. -/
theorem classify_idempotent_check :
    Wf wClassFS ∧
    (classify_photos (classify_photos wClassFS (["r"]) (["r", "p"])).1
      (["r"]) (["r", "p"])).2.1 = 0 :=
  ⟨by decide, classify_idempotent wClassFS (["r"]) (["r", "p"]) (by decide)⟩

/-- Folding the classifier never loses a file identity: the multiset of
identities is preserved step by step. -/
theorem classify_fold_perm (res : Resolver) (dest : FsPath) :
    ∀ (rem : List Entry) (fs : FS) (m s : Nat),
      (rem.map Prod.fst).Nodup → (∀ e ∈ rem, e ∈ fs.files) →
      ((rem.foldl (classifyStep res dest) (fs, m, s)).1.files.map Prod.snd).Perm
        (fs.files.map Prod.snd) := by
  intro rem
  induction rem with
  | nil => exact fun fs m s _ _ => List.Perm.refl _
  | cons c rem ih =>
    intro fs m s hnd hsub
    have hndt : (rem.map Prod.fst).Nodup := (List.nodup_cons.mp hnd).2
    rw [List.foldl_cons]
    rcases step_cases res dest (fs, m, s) c with hstep | ⟨d, hd, hstep⟩
    · rw [hstep]
      exact ih fs m (s + 1) hndt (fun e he => hsub e (List.mem_cons_of_mem c he))
    · rw [hstep]
      have hcf : c ∈ fs.files := hsub c (List.mem_cons_self c rem)
      have hperm1 : ((move_file fs c (dest ++ [d])).files.map Prod.snd).Perm
          (fs.files.map Prod.snd) := by
        rw [move_file_files, List.map_cons]
        show (c.2 :: (eraseFile fs.files c).map Prod.snd).Perm (fs.files.map Prod.snd)
        have hpe := (perm_cons_eraseFile hcf).map Prod.snd
        rw [List.map_cons] at hpe
        exact hpe.symm
      have hsub' : ∀ e ∈ rem, e ∈ (move_file fs c (dest ++ [d])).files := by
        intro e he
        rw [move_file_files]
        apply List.mem_cons_of_mem
        have hne : e ≠ c := by
          intro heq
          have hcm : c.1 ∉ rem.map Prod.fst := (List.nodup_cons.mp hnd).1
          exact hcm (heq ▸ List.mem_map_of_mem Prod.fst he)
        rw [mem_eraseFile_of_ne fs.files hne]
        exact hsub e (List.mem_cons_of_mem c he)
      exact (ih _ (m + 1) s hndt hsub').trans hperm1

/-- Claim C5: the classifier deletes nothing — the multiset of file
identities after a run is a permutation of the one before it; each file
is still present, at its original or relocated path. -/
theorem classify_no_deletion (fs : FS) (root dest : FsPath) (hw : Wf fs) :
    ((classify_photos fs root dest).1.files.map Prod.snd).Perm
      (fs.files.map Prod.snd) := by
  have hnd1 : ((iter_candidate_files pureRes fs root (some dest)).map Prod.fst).Nodup := by
    have hsub : List.Sublist (iter_candidate_files pureRes fs root (some dest)) fs.files :=
      List.filter_sublist fs.files
    exact hw.sublist (hsub.map Prod.fst)
  exact classify_fold_perm pureRes dest (iter_candidate_files pureRes fs root (some dest))
    fs 0 0 hnd1 (fun e he => ((mem_iter_iff pureRes fs root dest e).mp he).1)

/-- Witness for C5 on the concrete tree `wClassFS`. -/
theorem classify_no_deletion_check :
    Wf wClassFS ∧
    ((classify_photos wClassFS (["r"]) (["r", "p"])).1.files.map Prod.snd).Perm
      (wClassFS.files.map Prod.snd) :=
  ⟨by decide, classify_no_deletion wClassFS (["r"]) (["r", "p"]) (by decide)⟩

/-- Claim C7: when the expected root folder is absent, the run fails with
the reported error (the raised exception terminates the process with a
non-zero status) and the filesystem is returned unchanged — no move and
no directory creation has happened. -/
theorem main_missing_root_fatal (fs : FS) (appDir : FsPath)
    (h : ¬ PathExists fs (appDir ++ [ROOT_FOLDER_NAME])) :
    main fs appDir =
      (fs, Except.error ("找不到資料夾：" ++ pathString (appDir ++ [ROOT_FOLDER_NAME]))) := by
  simp only [main]
  rw [if_neg h]

/-- Witness for C7: an empty filesystem has no root folder. -/
theorem main_missing_root_check :
    ¬ PathExists (FS.mk [] []) ((["C"]) ++ [ROOT_FOLDER_NAME]) ∧
    main (FS.mk [] []) (["C"]) =
      (FS.mk [] [],
        Except.error ("找不到資料夾：" ++ pathString ((["C"]) ++ [ROOT_FOLDER_NAME]))) :=
  ⟨by decide, main_missing_root_fatal (FS.mk [] []) (["C"]) (by decide)⟩

/-- Every file present after a classifier fold was already present or
lies directly inside a date folder of the destination root. -/
theorem classify_fold_shape (res : Resolver) (dest : FsPath) :
    ∀ (rem : List Entry) (fs : FS) (m s : Nat),
      ∀ e ∈ (rem.foldl (classifyStep res dest) (fs, m, s)).1.files,
        e.1 ∈ fs.files.map Prod.fst ∨ ∃ d nm, e.1 = dest ++ [d, nm] := by
  intro rem
  induction rem with
  | nil => exact fun fs m s e he => Or.inl (List.mem_map_of_mem Prod.fst he)
  | cons c rem ih =>
    intro fs m s e he
    rw [List.foldl_cons] at he
    rcases step_cases res dest (fs, m, s) c with hstep | ⟨d, hd, hstep⟩
    · rw [hstep] at he
      exact ih fs m (s + 1) e he
    · rw [hstep] at he
      rcases ih _ (m + 1) s e he with hmem | hsh
      · rw [move_file_files, List.map_cons] at hmem
        rcases List.mem_cons.mp hmem with heq | hmem2
        · right
          obtain ⟨nm, hnm⟩ :=
            finalDest_shape (mkdirP fs (dest ++ [d])) (dest ++ [d]) (entryName c.1)
          refine ⟨d, nm, ?_⟩
          rw [heq]
          show finalDest (mkdirP fs (dest ++ [d])) (dest ++ [d]) (entryName c.1) =
            dest ++ [d, nm]
          rw [hnm, List.append_assoc]
          rfl
        · left
          obtain ⟨e', he', hf⟩ := List.mem_map.mp hmem2
          exact List.mem_map.mpr ⟨e', mem_of_mem_eraseFile he', hf⟩
      · exact Or.inr hsh

/-- Amended claim C6: the implementation has no month grouper.  The
orchestrator only runs the day-level classifier, so after a run every
file either kept its original path or sits directly inside
`photos_root/<date>` — one date-folder level below the photos root, with
no `<year>_<month-name>` layer. -/
theorem orchestrator_day_level_only (fs : FS) (appDir : FsPath) :
    ∀ e ∈ (main fs appDir).1.files,
      e.1 ∈ fs.files.map Prod.fst ∨
      ∃ d nm, e.1 = appDir ++ [ROOT_FOLDER_NAME, PHOTOS_FOLDER_NAME, d, nm] := by
  intro e he
  by_cases h : PathExists fs (appDir ++ [ROOT_FOLDER_NAME])
  · simp only [main] at he
    rw [if_pos h] at he
    rcases classify_fold_shape pureRes ((appDir ++ [ROOT_FOLDER_NAME]) ++ [PHOTOS_FOLDER_NAME])
        (iter_candidate_files pureRes
          (mkdirP fs ((appDir ++ [ROOT_FOLDER_NAME]) ++ [PHOTOS_FOLDER_NAME])) appDir
          (some ((appDir ++ [ROOT_FOLDER_NAME]) ++ [PHOTOS_FOLDER_NAME])))
        (mkdirP fs ((appDir ++ [ROOT_FOLDER_NAME]) ++ [PHOTOS_FOLDER_NAME])) 0 0 e he with
      hmem | ⟨d, nm, hsh⟩
    · exact Or.inl hmem
    · right
      refine ⟨d, nm, ?_⟩
      rw [hsh]
      simp [List.append_assoc]
  · simp only [main] at he
    rw [if_neg h] at he
    exact Or.inl (List.mem_map_of_mem Prod.fst he)

/-- Witness for the amended C6: the photo moved by the concrete run of
`wMainFS` lies directly inside its date folder under the photos root. -/
theorem orchestrator_day_level_check :
    ((["C", "元修檔案", "照片", "20240101", "20240101_1200.jpg"], 0) : Entry).1 ∈
        wMainFS.files.map Prod.fst ∨
      ∃ d nm, ((["C", "元修檔案", "照片", "20240101", "20240101_1200.jpg"], 0) : Entry).1 =
        (["C"]) ++ [ROOT_FOLDER_NAME, PHOTOS_FOLDER_NAME, d, nm] :=
  orchestrator_day_level_only wMainFS (["C"]) _ (by decide)

/-- Counterexample to claim C6 as stated: the claim requires a
`group_by_month` pass sequenced after the classifier, which would leave
the date folder `20240101` as a child of a `<year>_<month-name>` folder
(its file at a path of six components).  The actual run over `wMainFS`
returns only the classifier's two counters and leaves the single dated
file at `C/元修檔案/照片/20240101/20240101_1200.jpg` — the date folder is
still a direct child of the photos root, so no month grouping exists. -/
theorem month_grouping_absent_cx :
    (main wMainFS (["C"])).2 = Except.ok (1, 0) ∧
    (main wMainFS (["C"])).1.files.map Prod.fst =
      [(["C", "元修檔案", "照片", "20240101", "20240101_1200.jpg"])] :=
  ⟨by decide, by decide⟩

end PhotoSorter
